import Mathlib

/-!
Verification of the Union Bank statement extractor's core parsing logic
(`streamlit_app.py`): the header/noise filter `remove_headers`, the amount
classifier `parse_amounts`, the field extractor `extract_field`, and the
transaction reconstruction loop of `process_pdf`.

Text is modelled as `List Char`; a document is a `List (List Char)` of lines.
Python semantics modelled explicitly: `str.strip`/`rstrip` over the ASCII
whitespace class, `re` matching for the three patterns in the source
(`DATE_PATTERN`, `AMOUNT_PATTERN`, `SEPARATOR_PATTERN`), and `finditer`'s
left-to-right non-overlapping scan.
-/

namespace UnionBank

/-! ### Definitions -/

/-- Python whitespace class (ASCII part), used by `str.strip` and regex `\s`. -/
def pyWS (c : Char) : Bool :=
  c == ' ' || c == '\t' || c == '\n' || c == '\r' || c == '\x0B' || c == '\x0C'

/-- Python `str.lstrip()`. -/
def lstrip (l : List Char) : List Char := l.dropWhile pyWS

/-- Python `str.rstrip()`. -/
def rstrip (l : List Char) : List Char := (l.reverse.dropWhile pyWS).reverse

/-- Python `str.strip()`. -/
def strip (l : List Char) : List Char := lstrip (rstrip l)

/-- The `HEADERS_TO_REMOVE` denylist from the source, in order. -/
def HEADERS_TO_REMOVE : List (List Char) :=
  [ "NXJERRJE LLOGARIE".toList,
    "Dega UB".toList,
    "NUMERI I KLIENTIT:".toList,
    "KLIENTI:".toList,
    "ADRESA:".toList,
    "RRUGA ".toList,
    "NJESIA BASHKEIAKE".toList,
    "TIRANE".toList,
    "PERIUDHA -".toList,
    "DATA E FILLIMIT:".toList,
    "DATA E MBARIMIT:".toList,
    "DATA E PRINTIMIT:".toList,
    "LLOGARIA:".toList,
    "FAQE NR.".toList,
    "DATA  TIPI I TRANSAKSIONIT".toList,
    "PERSHKRIMI               REFERENCA".toList,
    "UNION BANK".toList,
    "PERIUDHA                 :".toList,
    "BALANCA E FILLIMIT".toList,
    "-llogar".toList ]

/-- `SEPARATOR_PATTERN = ^-[-\s]{19,}$` applied with `re.match` (anchored both
ends, since it is applied to a stripped line with no trailing newline). -/
def sepMatch : List Char → Bool
  | '-' :: rest => decide (19 ≤ rest.length) && rest.all (fun c => c == '-' || pyWS c)
  | _ => false

/-- Whether a line contains any denylist entry as a substring
(`any(h in line for h in HEADERS_TO_REMOVE)`). -/
def hasHeader (l : List Char) : Bool :=
  HEADERS_TO_REMOVE.any (fun h => decide (h <:+: l))

/-- Python `text.split("\n")`: always nonempty, `"".split("\n") == [""]`. -/
def splitNL : List Char → List (List Char)
  | [] => [[]]
  | c :: cs =>
    if c = '\n' then [] :: splitNL cs
    else (c :: (splitNL cs).headD []) :: (splitNL cs).tail

/-- Python `sep.join(parts)`. -/
def pyJoin (sep : List Char) : List (List Char) → List Char
  | [] => []
  | [l] => l
  | l :: ls => l ++ sep ++ pyJoin sep ls

/-- The per-line body of `remove_headers`: drop denylisted lines, drop
separator rules, right-trim, drop lines that become empty. -/
def cleanLines : List (List Char) → List (List Char)
  | [] => []
  | l :: ls =>
    if hasHeader l then cleanLines ls
    else if sepMatch (strip l) then cleanLines ls
    else if rstrip l = [] then cleanLines ls
    else rstrip l :: cleanLines ls

/-- `remove_headers` from the source: split on newline, filter, rejoin. -/
def remove_headers (t : List Char) : List Char :=
  pyJoin ['\n'] (cleanLines (splitNL t))

/-- Characters matched by `[\d,]` (ASCII digits and the comma). -/
def amountChar (c : Char) : Bool := c.isDigit || c == ','

/-- Attempt to match `AMOUNT_PATTERN = [\d,]+\.\d{2}` anchored at the head of
`l`.  The character class `[\d,]` never contains `.`, so backtracking inside
the greedy `[\d,]+` can never succeed: the only viable match takes the maximal
run, then requires `.` and two digits.  Returns the matched text and the
remaining characters. -/
def matchAt (l : List Char) : Option (List Char × List Char) :=
  if (l.takeWhile amountChar).isEmpty then none
  else
    match l.dropWhile amountChar with
    | '.' :: d1 :: d2 :: rest2 =>
      if d1.isDigit && d2.isDigit then
        some (l.takeWhile amountChar ++ ['.', d1, d2], rest2)
      else none
    | _ => none

/-- `AMOUNT_PATTERN.finditer(line)` starting at position `p` with fuel.
One unit of fuel is spent per step; each step consumes at least one character,
so fuel `l.length` never truncates. -/
def findMatchesGo : Nat → List Char → Nat → List (Nat × List Char)
  | 0, _, _ => []
  | fuel+1, l, p =>
    match matchAt l with
    | some mr => (p, mr.1) :: findMatchesGo fuel mr.2 (p + mr.1.length)
    | none =>
      match l with
      | [] => []
      | _ :: cs => findMatchesGo fuel cs (p + 1)

/-- All matches of `AMOUNT_PATTERN` in `line` with their start columns. -/
def findMatches (line : List Char) : List (Nat × List Char) :=
  findMatchesGo line.length line 0

/-- The four-field result of `parse_amounts` (`prefix`/`debi`/`kredi`/`balanca`
in the source; the `prefix` key is named `pre` here). -/
structure Amounts where
  pre : List Char
  debi : List Char
  kredi : List Char
  balanca : List Char
deriving DecidableEq, Repr

/-- Python `str.strip()`. -/
def stripCommas (m : List Char) : List Char := m.filter (fun c => c != ',')

/-- One iteration of the `for match in AMOUNT_PATTERN.finditer(line)` loop:
track the minimum start position seen and classify the amount by column. -/
def amountsStep (s : Option Nat × Amounts) (pm : Nat × List Char) :
    Option Nat × Amounts :=
  ⟨(match s.1 with
    | none => some pm.1
    | some q => some (if pm.1 < q then pm.1 else q)),
   if 100 ≤ pm.1 then { s.2 with balanca := stripCommas pm.2 }
   else if 80 ≤ pm.1 then { s.2 with kredi := stripCommas pm.2 }
   else if 60 ≤ pm.1 then { s.2 with debi := stripCommas pm.2 }
   else s.2⟩

/-- `parse_amounts` from the source: classify every `AMOUNT_PATTERN` match by
its start column, then compute the `prefix` from the first match position. -/
def parse_amounts (line : List Char) : Amounts :=
  let s := (findMatches line).foldl amountsStep (none, ⟨[], [], [], []⟩)
  match s.1 with
  | some p => { s.2 with pre := strip (line.take p) }
  | none => { s.2 with pre := strip line }

/-- Column band of the `balanca` assignment (`pos >= 100`). -/
def bandBal (p : Nat) : Bool := decide (100 ≤ p)

/-- Column band of the `kredi` assignment (`80 <= pos < 100`). -/
def bandKred (p : Nat) : Bool := decide (80 ≤ p) && decide (p < 100)

/-- Column band of the `debi` assignment (`60 <= pos < 80`). -/
def bandDeb (p : Nat) : Bool := decide (60 ≤ p) && decide (p < 80)

/-- The canonical amount of the rightmost (last-scanned) match whose start
column lies in the band `f`; empty if no match lies in the band. -/
def lastBandAmt (f : Nat → Bool) (ms : List (Nat × List Char)) : List Char :=
  match ms.reverse.find? (fun pm => f pm.1) with
  | some pm => stripCommas pm.2
  | none => []

/-- The declarative `prefix`: the text before the first match, trimmed, or the
whole trimmed line if there is no match. -/
def preSpec (line : List Char) : List Char :=
  match (findMatches line).head? with
  | some pm => strip (line.take pm.1)
  | none => strip line

/-- `DATE_PATTERN = ^(\d{2}-[A-Z]{3}-\d{4})\s*$` applied with `re.match` to an
already stripped line, which therefore must be exactly `DD-MMM-YYYY`. -/
def date_match : List Char → Bool
  | [d1, d2, h1, a, b, c, h2, y1, y2, y3, y4] =>
    d1.isDigit && d2.isDigit && h1 == '-' && a.isUpper && b.isUpper && c.isUpper &&
      h2 == '-' && y1.isDigit && y2.isDigit && y3.isDigit && y4.isDigit
  | _ => false

/-- Whether the tail of a `label:` occurrence lets `\s+(.+)` match: at least
one whitespace character followed by at least one further character. -/
def restOk : List Char → Bool
  | c :: _ :: _ => pyWS c
  | _ => false

/-- Scan for the first position where `label:` occurs followed by matching
`\s+(.+)`; the captured group, stripped, is the stripped tail after the label
(greedy `\s+` plus backtracking make `group(1).strip()` equal `rest.strip()`). -/
def extract_fieldGo (lbl : List Char) : List Char → List Char
  | [] => []
  | c :: cs =>
    if lbl.isPrefixOf (c :: cs) ∧ restOk ((c :: cs).drop lbl.length) then
      strip ((c :: cs).drop lbl.length)
    else extract_fieldGo lbl cs

/-- `extract_field(label, line)` from the source:
`re.search(rf"{label}:\s+(.+)", line)`, returning the stripped capture or
the empty string. -/
def extract_field (label line : List Char) : List Char :=
  extract_fieldGo (label ++ [':']) line

/-- Python's `x or y` on strings: `y` when `x` is empty. -/
def orElse (a b : List Char) : List Char := if a = [] then b else a

/-- `"Detajet:" in line or "Detaj et:" in line`. -/
def hasDetLabel (l : List Char) : Bool :=
  decide ("Detajet:".toList <:+: l) || decide ("Detaj et:".toList <:+: l)

/-- `extract_field("Detajet", line) or extract_field("Detaj et", line)`. -/
def extractDet (l : List Char) : List Char :=
  orElse (extract_field "Detajet".toList l) (extract_field "Detaj et".toList l)

/-- `"Perfituesi:" in line or "Me Urdher Te:" in line`. -/
def hasPerfLabel (l : List Char) : Bool :=
  decide ("Perfituesi:".toList <:+: l) || decide ("Me Urdher Te:".toList <:+: l)

/-- `extract_field("Perfituesi", line) or extract_field("Me Urdher Te", line)`. -/
def extractPerf (l : List Char) : List Char :=
  orElse (extract_field "Perfituesi".toList l) (extract_field "Me Urdher Te".toList l)

/-- `extract_field("Terminali", line) or extract_field("Termi nali", line)`. -/
def extractTerm (l : List Char) : List Char :=
  orElse (extract_field "Terminali".toList l) (extract_field "Termi nali".toList l)

/-- One output row of `process_pdf` (the dict appended to `rows`; the unnamed
first CSV column holding `amounts["prefix"]` is the field `pre`). -/
structure Row where
  pre : List Char
  detajet : List Char
  perfituesi : List Char
  referenca : List Char
  nrKartes : List Char
  dataOra : List Char
  terminali : List Char
  debi : List Char
  kredi : List Char
  balanca : List Char
deriving DecidableEq, Repr

/-- The `for offset in [2, 3]` lookahead for the `Detajet` label: the first
offset whose (in-range) line contains the label, with the extracted value. -/
def detLookahead (lines : List (List Char)) (i : Nat) : Option (Nat × List Char) :=
  if i + 2 < lines.length ∧ hasDetLabel (lines.getD (i + 2) []) then
    some (2, extractDet (lines.getD (i + 2) []))
  else if i + 3 < lines.length ∧ hasDetLabel (lines.getD (i + 3) []) then
    some (3, extractDet (lines.getD (i + 3) []))
  else none

/-- `while j < len(lines) and not DATE_PATTERN.match(lines[j].strip()): j += 1`
with explicit fuel (one unit per step). -/
def findNextDateGo (lines : List (List Char)) : Nat → Nat → Nat
  | 0, j => j
  | f + 1, j =>
    if j < lines.length then
      if date_match (strip (lines.getD j [])) then j
      else findNextDateGo lines f (j + 1)
    else j

/-- The first index `>= j` holding a date line (or `lines.length`). -/
def findNextDate (lines : List (List Char)) (j : Nat) : Nat :=
  findNextDateGo lines (lines.length - j) j

/-- The beneficiary continuation loop: collect `lines[j].strip()` while `j`
is in range and not a date line; returns the parts and the stop index. -/
def collectPerfGo (lines : List (List Char)) : Nat → Nat → List (List Char) × Nat
  | 0, j => ([], j)
  | f + 1, j =>
    if j < lines.length then
      if date_match (strip (lines.getD j [])) then ([], j)
      else
        ((strip (lines.getD j [])) :: (collectPerfGo lines f (j + 1)).1,
          (collectPerfGo lines f (j + 1)).2)
    else ([], j)

/-- The record emitted by the no-description fallback: only the amount fields
are populated. -/
def fallbackRow (a : Amounts) : Row :=
  ⟨a.pre, [], [], [], [], [], [], a.debi, a.kredi, a.balanca⟩

/-- The no-description fallback: emit `fallbackRow` and skip to the next date
line starting from `i + 2`. -/
def fallbackResult (lines : List (List Char)) (i : Nat) (a : Amounts) :
    Option Row × Nat :=
  (some (fallbackRow a), findNextDate lines (i + 2))

/-- Case 3 of the loop: the structured POS record with `Referenca`,
`Nr i Kartes`, `Data/Ora`, `Terminali` at fixed offsets, each guarded by a
bounds check, and the fixed cursor stride `detajet_offset + 5`. -/
def posResult (lines : List (List Char)) (i : Nat) (a : Amounts) (off : Nat)
    (det : List Char) : Option Row × Nat :=
  (some
    ⟨a.pre, det, [],
      (if i + off + 1 < lines.length then
        extract_field "Referenca".toList (lines.getD (i + off + 1) []) else []),
      (if i + off + 2 < lines.length then
        extract_field "Nr i Kartes".toList (lines.getD (i + off + 2) []) else []),
      (if i + off + 3 < lines.length then
        extract_field "Data/Ora".toList (lines.getD (i + off + 3) []) else []),
      (if i + off + 4 < lines.length then
        extractTerm (lines.getD (i + off + 4) []) else []),
      a.debi, a.kredi, a.balanca⟩,
    i + off + 5)

/-- The loop body after the start line matched and the amounts were parsed:
the `Detajet` lookahead and the four description variants. -/
def reconBody (lines : List (List Char)) (i : Nat) (a : Amounts) :
    Option Row × Nat :=
  if a.balanca = [] then (none, i + 1)
  else
    match detLookahead lines i with
    | none => fallbackResult lines i a
    | some (off, det) =>
      if det = [] then fallbackResult lines i a
      else if i + off + 1 < lines.length ∧
          hasPerfLabel (lines.getD (i + off + 1) []) then
        (some
          ⟨a.pre, det,
            pyJoin [' ']
              (extractPerf (lines.getD (i + off + 1) []) ::
                (collectPerfGo lines lines.length (i + off + 2)).1),
            [], [], [], [], a.debi, a.kredi, a.balanca⟩,
          (collectPerfGo lines lines.length (i + off + 2)).2)
      else if i + off + 1 < lines.length ∧
          date_match (strip (lines.getD (i + off + 1) [])) then
        (some ⟨a.pre, det, [], [], [], [], [], a.debi, a.kredi, a.balanca⟩,
          i + off + 1)
      else posResult lines i a off det

/-- One iteration of the `while i < len(lines) - 2` loop: the emitted record
(if any) and the next cursor position. -/
def reconStep (lines : List (List Char)) (i : Nat) : Option Row × Nat :=
  if date_match (strip (lines.getD i [])) then
    reconBody lines i (parse_amounts (lines.getD (i + 1) []))
  else (none, i + 1)

/-- One iteration of the `while i < len(lines) - 2` loop: the emitted record
(if any) and the next cursor position. -/
def reconStepChecked (lines : List (List Char)) (i : Nat) :
    Option (Option Row × Nat) :=
  if i < lines.length then
    if date_match (strip (lines.getD i [])) then
      if i + 1 < lines.length then
        some (reconBody lines i (parse_amounts (lines.getD (i + 1) [])))
      else none
    else some (none, i + 1)
  else none

/-- The reconstruction scan with fuel (one unit per loop iteration; the cursor
strictly increases each iteration, so fuel `lines.length` never truncates). -/
def reconGo (lines : List (List Char)) : Nat → Nat → List Row
  | 0, _ => []
  | fuel + 1, i =>
    if i < lines.length - 2 then
      match reconStep lines i with
      | (some r, j) => r :: reconGo lines fuel j
      | (none, j) => reconGo lines fuel j
    else []

/-- The full transaction reconstruction of `process_pdf` over cleaned lines. -/
def reconstruct (lines : List (List Char)) : List Row :=
  reconGo lines lines.length 0

/-- The stripped contents of `lines[s..e-1]` (the beneficiary continuation
region, described declaratively). -/
def segStrip (lines : List (List Char)) (s e : Nat) : List (List Char) :=
  (List.range (e - s)).map (fun k => strip (lines.getD (s + k) []))

/-- An amounts line: 100 spaces then `500.00`, so the match starts at column
100 and is classified as `balanca`. -/
def amtLine : List Char := List.replicate 100 ' ' ++ "500.00".toList

/-- The structured POS 7-line block from the spec's round-trip property. -/
def exC4 : List (List Char) :=
  ["01-JAN-2024".toList, amtLine, "Detajet: Blerje".toList,
   "Referenca: 123".toList, "Nr i Kartes: 4561".toList,
   "Data/Ora: 10:00".toList, "Terminali: ATM1".toList]

/-- The record the POS block produces. -/
def rowC4 : Row :=
  ⟨[], "Blerje".toList, [], "123".toList, "4561".toList, "10:00".toList,
    "ATM1".toList, [], [], "500.00".toList⟩

/-- A date line whose following line has no amounts (a false-positive start). -/
def exC2 : List (List Char) :=
  ["01-JAN-2024".toList, "no amounts here".toList, "01-JAN-2024".toList,
   "x".toList]

/-- The beneficiary-continuation example from the spec. -/
def exC5 : List (List Char) :=
  ["01-JAN-2024".toList, amtLine, "Detajet: X".toList,
   "Perfituesi: John".toList, "Doe".toList, "Account X".toList,
   "02-JAN-2024".toList, amtLine, "zzz".toList]

/-- The record the beneficiary example produces. -/
def rowC5 : Row :=
  ⟨[], "X".toList, "John Doe Account X".toList, [], [], [], [], [], [],
    "500.00".toList⟩

/-- A line with two amounts in the balance band (columns 100 and 105) and
text before the first match. -/
def exC10line : List Char :=
  'X' :: List.replicate 99 ' ' ++ "1.00".toList ++ [' '] ++ "2.00".toList

/-- A block whose offset-2 line contains the `Detajet:` label but with no
whitespace-separated value after the colon, so extraction yields `""`. -/
def exC6 : List (List Char) :=
  ["01-JAN-2024".toList, amtLine, "Detajet:x".toList, "01-FEB-2024".toList,
   "p".toList, "q".toList]

/-- A block with no description label at offsets 2 and 3. -/
def exC6w : List (List Char) :=
  ["01-JAN-2024".toList, amtLine, "stuff".toList, "more junk".toList,
   "01-FEB-2024".toList, "x".toList]

/-- A small well-formed block for the termination witness. -/
def exC3 : List (List Char) :=
  ["01-JAN-2024".toList, amtLine, "Detajet: A".toList, "x".toList,
   "y".toList, "z".toList]

/-- A small block for the bounds-check witness. -/
def exC7 : List (List Char) :=
  ["01-JAN-2024".toList, "middle".toList, "last".toList, "tail".toList]

/-- A page that the header filter erases completely. -/
def exC9a : List Char := "LLOGARIA:".toList

/-- A page that survives the header filter. -/
def exC9b : List Char := "hello".toList

/-- The extracted description value (empty both when no offset line contains
the label and when the label's extraction comes back empty). -/
def detValue (lines : List (List Char)) (i : Nat) : List Char :=
  match detLookahead lines i with
  | none => []
  | some od => od.2

/-! ### Theorems -/

theorem rstrip_pref (l : List Char) : rstrip l <+: l := by
  have h : (l.reverse.dropWhile pyWS) <:+ l.reverse := List.dropWhile_suffix pyWS
  have h2 := List.reverse_prefix.mpr h
  simpa [rstrip] using h2

theorem dropWhile_dropWhile (p : Char → Bool) (l : List Char) :
    (l.dropWhile p).dropWhile p = l.dropWhile p := by
  induction l with
  | nil => rfl
  | cons c cs ih =>
    by_cases h : p c
    · simp [List.dropWhile_cons, h, ih]
    · simp [List.dropWhile_cons, h]

theorem rstrip_idem (l : List Char) : rstrip (rstrip l) = rstrip l := by
  simp [rstrip, dropWhile_dropWhile]

theorem strip_rstrip (l : List Char) : strip (rstrip l) = strip l := by
  simp [strip, rstrip_idem]

theorem hasHeader_of_rstrip (l : List Char) (h : hasHeader (rstrip l) = true) :
    hasHeader l = true := by
  simp only [hasHeader, List.any_eq_true, decide_eq_true_eq] at h ⊢
  obtain ⟨x, hx, hinf⟩ := h
  exact ⟨x, hx, hinf.trans (rstrip_pref l).isInfix⟩

theorem mem_rstrip (l : List Char) (c : Char) (h : c ∈ rstrip l) : c ∈ l :=
  (rstrip_pref l).sublist.mem h

theorem splitNL_ne_nil (t : List Char) : splitNL t ≠ [] := by
  cases t with
  | nil => simp [splitNL]
  | cons c cs =>
    by_cases h : c = '\n' <;> simp [splitNL, h]

theorem splitNL_no_nl (t : List Char) : ∀ l ∈ splitNL t, '\n' ∉ l := by
  induction t with
  | nil => intro l hl; simp [splitNL] at hl; simp [hl]
  | cons c cs ih =>
    intro l hl
    by_cases h : c = '\n'
    · simp only [splitNL, if_pos h] at hl
      rcases List.mem_cons.mp hl with hl | hl
      · simp [hl]
      · exact ih l hl
    · simp only [splitNL, if_neg h] at hl
      cases hsp : splitNL cs with
      | nil => exact absurd hsp (splitNL_ne_nil cs)
      | cons m ms =>
        rw [hsp] at hl
        simp only [List.headD_cons, List.tail_cons] at hl
        rcases List.mem_cons.mp hl with hl | hl
        · subst hl
          intro hmem
          rcases List.mem_cons.mp hmem with hmem | hmem
          · exact h hmem.symm
          · exact ih m (hsp ▸ List.mem_cons_self m ms) hmem
        · exact ih l (hsp ▸ List.mem_cons_of_mem m hl)

theorem splitNL_single (l : List Char) (h : '\n' ∉ l) : splitNL l = [l] := by
  induction l with
  | nil => rfl
  | cons c cs ih =>
    have hc : c ≠ '\n' := fun hc => h (hc ▸ List.mem_cons_self c cs)
    have hcs : '\n' ∉ cs := fun hm => h (List.mem_cons_of_mem c hm)
    simp [splitNL, hc, ih hcs]

theorem splitNL_append_cons (l r : List Char) (h : '\n' ∉ l) :
    splitNL (l ++ '\n' :: r) = l :: splitNL r := by
  induction l with
  | nil => simp [splitNL]
  | cons c cs ih =>
    have hc : c ≠ '\n' := fun hc => h (hc ▸ List.mem_cons_self c cs)
    have hcs : '\n' ∉ cs := fun hm => h (List.mem_cons_of_mem c hm)
    simp [splitNL, hc, ih hcs]

theorem splitNL_join (ls : List (List Char)) (hnl : ∀ l ∈ ls, '\n' ∉ l)
    (hne : ls ≠ []) : splitNL (pyJoin ['\n'] ls) = ls := by
  induction ls with
  | nil => exact absurd rfl hne
  | cons x xs ih =>
    cases xs with
    | nil => exact splitNL_single x (hnl x (List.mem_cons_self x []))
    | cons y ys =>
      have hx : '\n' ∉ x := hnl x (List.mem_cons_self _ _)
      have hjoin : pyJoin ['\n'] (x :: y :: ys) = x ++ '\n' :: pyJoin ['\n'] (y :: ys) := by
        simp [pyJoin]
      rw [hjoin, splitNL_append_cons x _ hx,
        ih (fun l hl => hnl l (List.mem_cons_of_mem x hl)) (by simp)]

theorem pyJoin_append (sep : List Char) (la lb : List (List Char))
    (ha : la ≠ []) (hb : lb ≠ []) :
    pyJoin sep (la ++ lb) = pyJoin sep la ++ sep ++ pyJoin sep lb := by
  induction la with
  | nil => exact absurd rfl ha
  | cons x xs ih =>
    cases xs with
    | nil =>
      cases lb with
      | nil => exact absurd rfl hb
      | cons y ys => simp [pyJoin]
    | cons z zs =>
      have h1 : pyJoin sep (x :: z :: zs) = x ++ sep ++ pyJoin sep (z :: zs) := by
        simp [pyJoin]
      have h2 : pyJoin sep ((x :: z :: zs) ++ lb) =
          x ++ sep ++ pyJoin sep ((z :: zs) ++ lb) := by
        simp [pyJoin]
      rw [h2, ih (by simp), h1]
      simp

theorem cleanLines_src (xs : List (List Char)) (l : List Char)
    (h : l ∈ cleanLines xs) : ∃ x, x ∈ xs ∧ l = rstrip x := by
  induction xs with
  | nil => simp [cleanLines] at h
  | cons x xs ih =>
    by_cases h1 : hasHeader x
    · rw [cleanLines, if_pos h1] at h
      obtain ⟨y, hy, hl⟩ := ih h
      exact ⟨y, List.mem_cons_of_mem x hy, hl⟩
    · by_cases h2 : sepMatch (strip x)
      · rw [cleanLines, if_neg h1, if_pos h2] at h
        obtain ⟨y, hy, hl⟩ := ih h
        exact ⟨y, List.mem_cons_of_mem x hy, hl⟩
      · by_cases h3 : rstrip x = []
        · rw [cleanLines, if_neg h1, if_neg h2, if_pos h3] at h
          obtain ⟨y, hy, hl⟩ := ih h
          exact ⟨y, List.mem_cons_of_mem x hy, hl⟩
        · rw [cleanLines, if_neg h1, if_neg h2, if_neg h3] at h
          rcases List.mem_cons.mp h with h | h
          · exact ⟨x, List.mem_cons_self x xs, h⟩
          · obtain ⟨y, hy, hl⟩ := ih h
            exact ⟨y, List.mem_cons_of_mem x hy, hl⟩

theorem cleanLines_mem (xs : List (List Char)) (l : List Char)
    (h : l ∈ cleanLines xs) :
    hasHeader l = false ∧ sepMatch (strip l) = false ∧ rstrip l = l ∧ l ≠ [] := by
  induction xs with
  | nil => simp [cleanLines] at h
  | cons x xs ih =>
    by_cases h1 : hasHeader x
    · rw [cleanLines, if_pos h1] at h; exact ih h
    · by_cases h2 : sepMatch (strip x)
      · rw [cleanLines, if_neg h1, if_pos h2] at h; exact ih h
      · by_cases h3 : rstrip x = []
        · rw [cleanLines, if_neg h1, if_neg h2, if_pos h3] at h; exact ih h
        · rw [cleanLines, if_neg h1, if_neg h2, if_neg h3] at h
          rcases List.mem_cons.mp h with h | h
          · subst h
            refine ⟨?_, ?_, rstrip_idem x, h3⟩
            · cases hh : hasHeader (rstrip x) with
              | false => rfl
              | true => exact absurd (hasHeader_of_rstrip x hh) h1
            · rw [strip_rstrip]
              simpa using h2
          · exact ih h

theorem cleanLines_fixed (xs : List (List Char))
    (h : ∀ l ∈ xs, hasHeader l = false ∧ sepMatch (strip l) = false ∧
      rstrip l = l ∧ l ≠ []) : cleanLines xs = xs := by
  induction xs with
  | nil => rfl
  | cons x xs ih =>
    obtain ⟨h1, h2, h3, h4⟩ := h x (List.mem_cons_self x xs)
    have hrec := ih (fun l hl => h l (List.mem_cons_of_mem x hl))
    simp [cleanLines, h1, h2, h3, h4, hrec]

theorem cleanLines_append (xs ys : List (List Char)) :
    cleanLines (xs ++ ys) = cleanLines xs ++ cleanLines ys := by
  induction xs with
  | nil => rfl
  | cons x xs ih =>
    show cleanLines (x :: (xs ++ ys)) = _
    rw [cleanLines, cleanLines]
    split
    · exact ih
    · split
      · exact ih
      · split
        · exact ih
        · simp [ih]

theorem cleanLines_no_nl (t : List Char) :
    ∀ l ∈ cleanLines (splitNL t), '\n' ∉ l := by
  intro l hl
  obtain ⟨x, hx, hlx⟩ := cleanLines_src _ l hl
  intro hmem
  exact splitNL_no_nl t x hx (mem_rstrip x '\n' (hlx ▸ hmem))

theorem cleanLines_nil_of_rh_nil (t : List Char) (h : remove_headers t = []) :
    cleanLines (splitNL t) = [] := by
  by_contra hne
  obtain ⟨x, xs, hxx⟩ := List.exists_cons_of_ne_nil hne
  have hmem : x ∈ cleanLines (splitNL t) := hxx ▸ List.mem_cons_self x xs
  have hxne : x ≠ [] := (cleanLines_mem _ x hmem).2.2.2
  rw [remove_headers, hxx] at h
  cases xs with
  | nil => exact hxne h
  | cons y ys =>
    have : pyJoin ['\n'] (x :: y :: ys) = x ++ '\n' :: pyJoin ['\n'] (y :: ys) := by
      simp [pyJoin]
    rw [this] at h
    cases x with
    | nil => exact hxne rfl
    | cons c cs => simp at h

theorem matchAt_len (l : List Char) (m rest : List Char)
    (h : matchAt l = some (m, rest)) : 4 ≤ m.length ∧ rest.length < l.length := by
  rw [matchAt] at h
  split at h
  · exact absurd h (by simp)
  · rename_i hrun
    have hne : l.takeWhile amountChar ≠ [] := fun hnil => hrun (by simp [hnil])
    have hpos : 1 ≤ (l.takeWhile amountChar).length := List.length_pos.mpr hne
    split at h
    · rename_i d1 d2 rest2 hdrop
      split at h
      · simp only [Option.some.injEq, Prod.mk.injEq] at h
        obtain ⟨hm, hrest⟩ := h
        subst hrest
        constructor
        · rw [← hm]
          simp only [List.length_append, List.length_cons]
          omega
        · have hlen : (l.takeWhile amountChar).length +
              (l.dropWhile amountChar).length = l.length := by
            rw [← List.length_append, List.takeWhile_append_dropWhile]
          rw [hdrop] at hlen
          simp only [List.length_cons] at hlen
          omega
      · exact absurd h (by simp)
    · exact absurd h (by simp)

theorem findMatchesGo_pos_ge (fuel : Nat) :
    ∀ (l : List Char) (p : Nat) (q : Nat) (m : List Char),
      (q, m) ∈ findMatchesGo fuel l p → p ≤ q := by
  induction fuel with
  | zero => intro l p q m h; simp [findMatchesGo] at h
  | succ fuel ih =>
    intro l p q m h
    simp only [findMatchesGo] at h
    split at h
    · rename_i mr heq
      rcases List.mem_cons.mp h with h | h
      · simp only [Prod.mk.injEq] at h
        omega
      · have := ih mr.2 (p + mr.1.length) q m h
        omega
    · split at h
      · simp at h
      · have := ih _ (p + 1) q m h
        omega

theorem findMatchesGo_pairwise (fuel : Nat) :
    ∀ (l : List Char) (p : Nat),
      (findMatchesGo fuel l p).Pairwise (fun a b => a.1 < b.1) := by
  induction fuel with
  | zero => intro l p; simp [findMatchesGo]
  | succ fuel ih =>
    intro l p
    simp only [findMatchesGo]
    split
    · rename_i mr heq
      refine List.Pairwise.cons ?_ (ih mr.2 (p + mr.1.length))
      intro x hx
      have hge := findMatchesGo_pos_ge fuel mr.2 (p + mr.1.length) x.1 x.2 (by simpa using hx)
      have hlen : 4 ≤ mr.1.length ∧ mr.2.length < l.length :=
        matchAt_len l mr.1 mr.2 (by simpa using heq)
      simp only
      omega
    · split
      · simp
      · exact ih _ (p + 1)

theorem amountsFold_balanca (ms : List (Nat × List Char)) :
    ∀ s : Option Nat × Amounts,
      ((ms.foldl amountsStep s).2).balanca =
        match ms.reverse.find? (fun pm => bandBal pm.1) with
        | some pm => stripCommas pm.2
        | none => s.2.balanca := by
  induction ms with
  | nil => intro s; simp
  | cons a ms ih =>
    intro s
    rw [List.foldl_cons, ih (amountsStep s a), List.reverse_cons, List.find?_append]
    cases hf : ms.reverse.find? (fun pm => bandBal pm.1) with
    | some pm => rfl
    | none =>
      by_cases h100 : 100 ≤ a.1
      · simp [amountsStep, bandBal, h100]
      · by_cases h80 : 80 ≤ a.1 <;> by_cases h60 : 60 ≤ a.1 <;>
          simp [amountsStep, bandBal, h100, h80, h60]

theorem amountsFold_kredi (ms : List (Nat × List Char)) :
    ∀ s : Option Nat × Amounts,
      ((ms.foldl amountsStep s).2).kredi =
        match ms.reverse.find? (fun pm => bandKred pm.1) with
        | some pm => stripCommas pm.2
        | none => s.2.kredi := by
  induction ms with
  | nil => intro s; simp
  | cons a ms ih =>
    intro s
    rw [List.foldl_cons, ih (amountsStep s a), List.reverse_cons, List.find?_append]
    cases hf : ms.reverse.find? (fun pm => bandKred pm.1) with
    | some pm => rfl
    | none =>
      by_cases h100 : 100 ≤ a.1
      · have : ¬ a.1 < 100 := by omega
        simp [amountsStep, bandKred, h100, this]
      · by_cases h80 : 80 ≤ a.1
        · have : a.1 < 100 := by omega
          simp [amountsStep, bandKred, h100, h80, this]
        · by_cases h60 : 60 ≤ a.1 <;>
            simp [amountsStep, bandKred, h100, h80, h60]

theorem amountsFold_debi (ms : List (Nat × List Char)) :
    ∀ s : Option Nat × Amounts,
      ((ms.foldl amountsStep s).2).debi =
        match ms.reverse.find? (fun pm => bandDeb pm.1) with
        | some pm => stripCommas pm.2
        | none => s.2.debi := by
  induction ms with
  | nil => intro s; simp
  | cons a ms ih =>
    intro s
    rw [List.foldl_cons, ih (amountsStep s a), List.reverse_cons, List.find?_append]
    cases hf : ms.reverse.find? (fun pm => bandDeb pm.1) with
    | some pm => rfl
    | none =>
      by_cases h100 : 100 ≤ a.1
      · have : ¬ a.1 < 80 := by omega
        simp [amountsStep, bandDeb, h100, this]
      · by_cases h80 : 80 ≤ a.1
        · have : ¬ a.1 < 80 := by omega
          simp [amountsStep, bandDeb, h100, h80, this]
        · by_cases h60 : 60 ≤ a.1
          · have : a.1 < 80 := by omega
            simp [amountsStep, bandDeb, h100, h80, h60, this]
          · simp [amountsStep, bandDeb, h100, h80, h60]

theorem amountsFold_fst_min (ms : List (Nat × List Char)) (p0 : Nat) :
    ∀ s : Option Nat × Amounts, s.1 = some p0 → (∀ x ∈ ms, p0 ≤ x.1) →
      (ms.foldl amountsStep s).1 = some p0 := by
  induction ms with
  | nil => intro s hs _; simpa using hs
  | cons a ms ih =>
    intro s hs h
    rw [List.foldl_cons]
    refine ih _ ?_ (fun x hx => h x (List.mem_cons_of_mem a hx))
    have ha : p0 ≤ a.1 := h a (List.mem_cons_self a ms)
    simp only [amountsStep, hs]
    rw [if_neg (by omega)]

theorem amountsFold_fst_head (ms : List (Nat × List Char))
    (hpw : ms.Pairwise (fun a b => a.1 < b.1)) (r : Amounts) :
    (ms.foldl amountsStep (none, r)).1 = ms.head?.map Prod.fst := by
  cases ms with
  | nil => rfl
  | cons a ms =>
    rw [List.foldl_cons]
    have hlt := (List.pairwise_cons.mp hpw).1
    have := amountsFold_fst_min ms a.1 (amountsStep (none, r) a)
      (by simp [amountsStep]) (fun x hx => le_of_lt (hlt x hx))
    simpa using this

theorem findMatches_pairwise (line : List Char) :
    (findMatches line).Pairwise (fun a b => a.1 < b.1) :=
  findMatchesGo_pairwise line.length line 0

/-- Full characterization of `parse_amounts`: each field is the rightmost
match of its column band, and the prefix comes from the first match. -/
theorem parse_amounts_char (line : List Char) :
    parse_amounts line =
      ⟨preSpec line, lastBandAmt bandDeb (findMatches line),
        lastBandAmt bandKred (findMatches line),
        lastBandAmt bandBal (findMatches line)⟩ := by
  have hb := amountsFold_balanca (findMatches line) (none, ⟨[], [], [], []⟩)
  have hk := amountsFold_kredi (findMatches line) (none, ⟨[], [], [], []⟩)
  have hd := amountsFold_debi (findMatches line) (none, ⟨[], [], [], []⟩)
  have hf := amountsFold_fst_head (findMatches line) (findMatches_pairwise line)
    ⟨[], [], [], []⟩
  cases hg : (findMatches line).foldl amountsStep (none, ⟨[], [], [], []⟩) with
  | mk f r =>
    rw [hg] at hb hk hd hf
    dsimp only at hb hk hd hf
    cases hms : findMatches line with
    | nil =>
      rw [hms] at hf hb hk hd
      simp at hf
      subst hf
      simp only [List.reverse_nil, List.find?_nil] at hb hk hd
      simp only [parse_amounts, hg]
      simp [preSpec, hms, lastBandAmt, hb, hk, hd]
    | cons a t =>
      rw [hms] at hf
      simp at hf
      subst hf
      simp only [parse_amounts, hg]
      rw [hms] at hb hk hd
      simp [preSpec, hms, lastBandAmt, hb, hk, hd]

/-- In a list sorted strictly by position, the rightmost element of a band is
found by `find?` on the reversed list. -/
theorem reverse_find_rightmost (l : List (Nat × List Char))
    (hpw : l.Pairwise (fun a b => a.1 < b.1)) (p : Nat) (m : List Char)
    (f : Nat → Bool) (hmem : (p, m) ∈ l) (hf : f p = true)
    (hmax : ∀ x ∈ l, f x.1 = true → x.1 ≤ p) :
    l.reverse.find? (fun pm => f pm.1) = some (p, m) := by
  induction l with
  | nil => simp at hmem
  | cons a t ih =>
    obtain ⟨hlt, hpw'⟩ := List.pairwise_cons.mp hpw
    rw [List.reverse_cons, List.find?_append]
    rcases List.mem_cons.mp hmem with hmem | hmem
    · have hnone : t.reverse.find? (fun pm => f pm.1) = none := by
        rw [List.find?_eq_none]
        intro x hx hfx
        have hxt : x ∈ t := List.mem_reverse.mp hx
        have h1 := hmax x (List.mem_cons_of_mem a hxt) hfx
        have h2 := hlt x hxt
        rw [← hmem] at h2
        simp only at h2
        omega
      rw [hnone]
      simp [← hmem, List.find?, hf]
    · have := ih hpw' hmem
        (fun x hx hfx => hmax x (List.mem_cons_of_mem a hx) hfx)
      rw [this]
      rfl

theorem findNextDateGo_ge (lines : List (List Char)) :
    ∀ f j, j ≤ findNextDateGo lines f j := by
  intro f
  induction f with
  | zero => intro j; simp [findNextDateGo]
  | succ f ih =>
    intro j
    simp only [findNextDateGo]
    split
    · split
      · omega
      · have := ih (j + 1)
        omega
    · omega

theorem findNextDate_ge (lines : List (List Char)) (j : Nat) :
    j ≤ findNextDate lines j :=
  findNextDateGo_ge lines (lines.length - j) j

theorem collectPerfGo_ge (lines : List (List Char)) :
    ∀ f j, j ≤ (collectPerfGo lines f j).2 := by
  intro f
  induction f with
  | zero => intro j; simp [collectPerfGo]
  | succ f ih =>
    intro j
    simp only [collectPerfGo]
    split
    · split
      · omega
      · have := ih (j + 1)
        simp only
        omega
    · omega

theorem reconStep_gt (lines : List (List Char)) (i : Nat) :
    i < (reconStep lines i).2 := by
  rw [reconStep]
  split
  · rw [reconBody]
    split
    · simp
    · cases hdl : detLookahead lines i with
      | none =>
        dsimp only
        have := findNextDate_ge lines (i + 2)
        simp only [fallbackResult]
        omega
      | some od =>
        obtain ⟨off, det⟩ := od
        dsimp only
        by_cases hdet : det = []
        · rw [if_pos hdet]
          have := findNextDate_ge lines (i + 2)
          simp only [fallbackResult]
          omega
        · rw [if_neg hdet]
          by_cases hperf : i + off + 1 < lines.length ∧
              hasPerfLabel (lines.getD (i + off + 1) [])
          · rw [if_pos hperf]
            have := collectPerfGo_ge lines lines.length (i + off + 2)
            dsimp only
            omega
          · rw [if_neg hperf]
            by_cases hdate : i + off + 1 < lines.length ∧
                date_match (strip (lines.getD (i + off + 1) []))
            · rw [if_pos hdate]
              dsimp only
              omega
            · rw [if_neg hdate]
              simp only [posResult]
              omega
  · simp

theorem reconGo_fuel (lines : List (List Char)) :
    ∀ f₁ f₂ i, lines.length - 2 - i ≤ f₁ → lines.length - 2 - i ≤ f₂ →
      reconGo lines f₁ i = reconGo lines f₂ i := by
  intro f₁
  induction f₁ with
  | zero =>
    intro f₂ i h1 h2
    have hi : ¬ i < lines.length - 2 := by omega
    cases f₂ with
    | zero => rfl
    | succ f => simp [reconGo, hi]
  | succ f ih =>
    intro f₂ i h1 h2
    cases f₂ with
    | zero =>
      have hi : ¬ i < lines.length - 2 := by omega
      simp [reconGo, hi]
    | succ f₂ =>
      simp only [reconGo]
      by_cases hi : i < lines.length - 2
      · rw [if_pos hi, if_pos hi]
        have hgt := reconStep_gt lines i
        cases hs : reconStep lines i with
        | mk r j =>
          rw [hs] at hgt
          simp only at hgt
          have h1' : lines.length - 2 - j ≤ f := by omega
          have h2' : lines.length - 2 - j ≤ f₂ := by omega
          cases r with
          | some row => simp [ih f₂ j h1' h2']
          | none => simp [ih f₂ j h1' h2']
      · rw [if_neg hi, if_neg hi]

theorem segStrip_cons (lines : List (List Char)) (s e : Nat) (h : s < e) :
    segStrip lines s e = strip (lines.getD s []) :: segStrip lines (s + 1) e := by
  rw [segStrip, segStrip]
  have he : e - s = (e - (s + 1)) + 1 := by omega
  rw [he, List.range_succ_eq_map]
  simp only [List.map_cons, Nat.add_zero, List.map_map]
  refine congrArg _ ?_
  refine List.map_congr_left ?_
  intro k _
  simp only [Function.comp]
  have : s + (k + 1) = s + 1 + k := by omega
  rw [this]

theorem collectPerf_spec (lines : List (List Char)) :
    ∀ f j, lines.length - j ≤ f →
      collectPerfGo lines f j =
        (segStrip lines j (findNextDate lines j), findNextDate lines j) := by
  intro f
  induction f with
  | zero =>
    intro j h
    have hj : ¬ j < lines.length := by omega
    have hfd : findNextDate lines j = j := by
      rw [findNextDate]
      have h0 : lines.length - j = 0 := by omega
      rw [h0]
      rfl
    simp [collectPerfGo, hfd, segStrip]
  | succ f ih =>
    intro j h
    by_cases hj : j < lines.length
    · have h1 : lines.length - j = (lines.length - (j + 1)) + 1 := by omega
      by_cases hd : date_match (strip (lines.getD j []))
      · have hfd : findNextDate lines j = j := by
          rw [findNextDate, h1]
          simp only [findNextDateGo]
          rw [if_pos hj, if_pos hd]
        simp only [collectPerfGo]
        rw [if_pos hj, if_pos hd, hfd]
        simp [segStrip]
      · have hnext : findNextDate lines j = findNextDate lines (j + 1) := by
          rw [findNextDate, findNextDate, h1]
          simp only [findNextDateGo]
          rw [if_pos hj, if_neg hd]
        have hrec := ih (j + 1) (by omega)
        have hge : j + 1 ≤ findNextDate lines (j + 1) := findNextDate_ge lines (j + 1)
        simp only [collectPerfGo]
        rw [if_pos hj, if_neg hd, hrec, hnext,
          segStrip_cons lines j (findNextDate lines (j + 1)) (by omega)]
    · have hfd : findNextDate lines j = j := by
        rw [findNextDate]
        have h0 : lines.length - j = 0 := by omega
        rw [h0]
        rfl
      simp only [collectPerfGo]
      rw [if_neg hj, hfd]
      simp [segStrip]

theorem reconStepChecked_eq (lines : List (List Char)) (i : Nat)
    (h : i < lines.length - 2) :
    reconStepChecked lines i = some (reconStep lines i) := by
  have h1 : i < lines.length := by omega
  have h2 : i + 1 < lines.length := by omega
  rw [reconStepChecked, if_pos h1, reconStep]
  by_cases hd : date_match (strip (lines.getD i []))
  · rw [if_pos hd, if_pos hd, if_pos h2]
  · rw [if_neg hd, if_neg hd]

/-- C1: on an amounts line, every `AMOUNT_PATTERN` match is classified purely
by its start column — column >= 100 feeds `balanca`, 80 <= column < 100 feeds
`kredi`, 60 <= column < 80 feeds `debi`, and columns < 60 feed no field — and
the record's prefix is the text before the first match's start column,
trimmed, or the whole trimmed line when there is no match. -/
theorem claim_C1 (line : List Char) :
    parse_amounts line =
      ⟨preSpec line, lastBandAmt bandDeb (findMatches line),
        lastBandAmt bandKred (findMatches line),
        lastBandAmt bandBal (findMatches line)⟩ :=
  parse_amounts_char line

/-- C10: when two or more matches start in the same column band, the emitted
value for that band is the rightmost (last-scanned) match, and the prefix is
still computed from the leftmost match of the whole line. -/
theorem claim_C10 (line : List Char) (p₁ p₂ : Nat) (m₁ m₂ : List Char)
    (hm₁ : (p₁, m₁) ∈ findMatches line) (hm₂ : (p₂, m₂) ∈ findMatches line)
    (hlt : p₁ < p₂) :
    (100 ≤ p₁ → 100 ≤ p₂ → (∀ x ∈ findMatches line, 100 ≤ x.1 → x.1 ≤ p₂) →
      (parse_amounts line).balanca = stripCommas m₂) ∧
    (80 ≤ p₁ → p₁ < 100 → 80 ≤ p₂ → p₂ < 100 →
      (∀ x ∈ findMatches line, 80 ≤ x.1 → x.1 < 100 → x.1 ≤ p₂) →
      (parse_amounts line).kredi = stripCommas m₂) ∧
    (60 ≤ p₁ → p₁ < 80 → 60 ≤ p₂ → p₂ < 80 →
      (∀ x ∈ findMatches line, 60 ≤ x.1 → x.1 < 80 → x.1 ≤ p₂) →
      (parse_amounts line).debi = stripCommas m₂) ∧
    (∀ p0 m0 t, findMatches line = (p0, m0) :: t →
      (parse_amounts line).pre = strip (line.take p0)) := by
  have hpw := findMatches_pairwise line
  refine ⟨?_, ?_, ?_, ?_⟩
  · intro h1 h2 hmax
    rw [parse_amounts_char]
    show lastBandAmt bandBal (findMatches line) = stripCommas m₂
    rw [lastBandAmt, reverse_find_rightmost (findMatches line) hpw p₂ m₂ bandBal hm₂
      (by simp [bandBal]; omega)
      (fun x hx hbx => hmax x hx (by simpa [bandBal] using hbx))]
  · intro h1 h1' h2 h2' hmax
    rw [parse_amounts_char]
    show lastBandAmt bandKred (findMatches line) = stripCommas m₂
    rw [lastBandAmt, reverse_find_rightmost (findMatches line) hpw p₂ m₂ bandKred hm₂
      (by simp [bandKred]; omega)
      (fun x hx hbx => by
        have := (by simpa [bandKred] using hbx : 80 ≤ x.1 ∧ x.1 < 100)
        exact hmax x hx this.1 this.2)]
  · intro h1 h1' h2 h2' hmax
    rw [parse_amounts_char]
    show lastBandAmt bandDeb (findMatches line) = stripCommas m₂
    rw [lastBandAmt, reverse_find_rightmost (findMatches line) hpw p₂ m₂ bandDeb hm₂
      (by simp [bandDeb]; omega)
      (fun x hx hbx => by
        have := (by simpa [bandDeb] using hbx : 60 ≤ x.1 ∧ x.1 < 80)
        exact hmax x hx this.1 this.2)]
  · intro p0 m0 t heq
    rw [parse_amounts_char]
    show preSpec line = strip (line.take p0)
    simp [preSpec, heq]

/-- C10 witness: on a line with `1.00` at column 100 and `2.00` at column
105, `balanca` is the rightmost match and the prefix comes from column 100. -/
theorem claim_C10_witness :
    (parse_amounts exC10line).balanca = "2.00".toList ∧
      (parse_amounts exC10line).pre = "X".toList := by
  have h := claim_C10 exC10line 100 105 "1.00".toList "2.00".toList
    (by decide) (by decide) (by decide)
  have h1 := h.1 (by decide) (by decide) (by decide)
  have h2 := h.2.2.2 100 "1.00".toList [(105, "2.00".toList)] (by decide)
  refine ⟨by rw [h1]; decide, by rw [h2]; decide⟩

/-- C2: a start-line match whose following line has no match in the balance
band (column >= 100) is rejected: no record is emitted and the cursor advances
by exactly one. -/
theorem claim_C2 (lines : List (List Char)) (i : Nat)
    (hdate : date_match (strip (lines.getD i [])) = true)
    (hnobal : ∀ pm ∈ findMatches (lines.getD (i + 1) []), pm.1 < 100) :
    reconStep lines i = (none, i + 1) := by
  have hbal : (parse_amounts (lines.getD (i + 1) [])).balanca = [] := by
    rw [parse_amounts_char]
    show lastBandAmt bandBal (findMatches (lines.getD (i + 1) [])) = []
    rw [lastBandAmt, List.find?_eq_none.mpr ?hnone]
    case hnone =>
      intro x hx
      have := hnobal x (List.mem_reverse.mp hx)
      simp [bandBal]
      omega
  rw [reconStep, if_pos hdate, reconBody, if_pos hbal]

/-- C2 witness: the spec's concrete example — a date line followed by
`"no amounts here"` yields no record and a cursor step of one. -/
theorem claim_C2_witness :
    (∀ pm ∈ findMatches (exC2.getD 1 []), pm.1 < 100) ∧
      reconStep exC2 0 = (none, 1) :=
  ⟨by decide, claim_C2 exC2 0 (by decide) (by decide)⟩

/-- C3: the reconstruction scan terminates — every loop iteration strictly
increases the cursor, so the cursor is monotonically non-decreasing across
the scan, and any fuel of at least `lines.length - 2` iterations yields the
completed scan. -/
theorem claim_C3 (lines : List (List Char)) :
    (∀ i, i < (reconStep lines i).2) ∧
      ∀ fuel, lines.length - 2 ≤ fuel → reconGo lines fuel 0 = reconstruct lines := by
  refine ⟨reconStep_gt lines, fun fuel h => ?_⟩
  rw [reconstruct]
  exact reconGo_fuel lines fuel lines.length 0 (by omega) (by omega)

/-- C3 witness: on a concrete block the step at cursor 0 advances, and fuel
10 already computes the full reconstruction. -/
theorem claim_C3_witness :
    0 < (reconStep exC3 0).2 ∧ exC3.length - 2 ≤ 10 ∧
      reconGo exC3 10 0 = reconstruct exC3 :=
  ⟨(claim_C3 exC3).1 0, by decide, (claim_C3 exC3).2 10 (by decide)⟩

/-- C4: on the 7-line structured POS block the reconstructor emits exactly one
record with `Detajet="Blerje"`, `Referenca="123"`, `Nr i Kartes="4561"`,
`Data/Ora="10:00"`, `Terminali="ATM1"`, and the cursor advances by exactly 7
(description offset 2 + 5), without re-validating that position 7 is a date
line. -/
theorem claim_C4 :
    reconstruct exC4 = [rowC4] ∧ reconStep exC4 0 = (some rowC4, 7) := by
  decide

/-- C5: when the line after the matched description carries `Perfituesi:` or
`Me Urdher Te:`, the emitted beneficiary is the extracted label value joined
by single spaces with every following trimmed line up to (but not including)
the next date line; the cursor resumes at that date line and `Referenca`,
`Nr i Kartes`, `Data/Ora`, `Terminali` are all empty. -/
theorem claim_C5 (lines : List (List Char)) (i off : Nat) (det : List Char)
    (hdate : date_match (strip (lines.getD i [])) = true)
    (hbal : (parse_amounts (lines.getD (i + 1) [])).balanca ≠ [])
    (hdl : detLookahead lines i = some (off, det)) (hdet : det ≠ [])
    (hnli : i + off + 1 < lines.length)
    (hperf : hasPerfLabel (lines.getD (i + off + 1) []) = true) :
    reconStep lines i =
      (some
        ⟨(parse_amounts (lines.getD (i + 1) [])).pre, det,
          pyJoin [' ']
            (extractPerf (lines.getD (i + off + 1) []) ::
              segStrip lines (i + off + 2) (findNextDate lines (i + off + 2))),
          [], [], [], [],
          (parse_amounts (lines.getD (i + 1) [])).debi,
          (parse_amounts (lines.getD (i + 1) [])).kredi,
          (parse_amounts (lines.getD (i + 1) [])).balanca⟩,
        findNextDate lines (i + off + 2)) := by
  rw [reconStep, if_pos hdate, reconBody, if_neg hbal, hdl]
  dsimp only
  rw [if_neg hdet, if_pos ⟨hnli, hperf⟩,
    collectPerf_spec lines lines.length (i + off + 2) (by omega)]

/-- C5 witness: the spec's example — `Perfituesi: John` followed by `Doe` and
`Account X` before the next date yields `Perfituesi = "John Doe Account X"`
and the cursor resumes at the date line (index 6). -/
theorem claim_C5_witness : reconStep exC5 0 = (some rowC5, 6) := by
  have h := claim_C5 exC5 0 2 "X".toList (by decide) (by decide) (by decide)
    (by decide) (by decide) (by decide)
  revert h
  decide

/-- C7: within the loop guard `i < len(lines) - 2`, every line index the
iteration touches is in bounds — the explicitly-checked step function never
signals an out-of-range access and agrees with the total step function, so
the scan returns a record list rather than raising. -/
theorem claim_C7 (lines : List (List Char)) (i : Nat)
    (h : i < lines.length - 2) :
    reconStepChecked lines i = some (reconStep lines i) :=
  reconStepChecked_eq lines i h

/-- C7 witness: concrete in-bounds iteration. -/
theorem claim_C7_witness :
    0 < exC7.length - 2 ∧ reconStepChecked exC7 0 = some (reconStep exC7 0) :=
  ⟨by decide, claim_C7 exC7 0 (by decide)⟩

/-- C6 counterexample: the claim says the no-description fallback is taken iff
neither the offset-2 nor the offset-3 line contains the description label.
On `exC6` the offset-2 line `"Detajet:x"` does contain the label, yet the
step takes the fallback (the extracted value is empty because no whitespace
follows the colon), refuting the only-if direction of the claimed
equivalence. -/
theorem claim_C6_counterexample :
    hasDetLabel (exC6.getD 2 []) = true ∧
      reconStep exC6 0 = fallbackResult exC6 0 (parse_amounts (exC6.getD 1 [])) := by
  decide

/-- C6 (amended): for an accepted start, the no-description fallback is taken
iff the extracted description value is empty — either no offset line contains
the label, or the first offset line containing it yields an empty extracted
value. -/
theorem claim_C6_amended (lines : List (List Char)) (i : Nat)
    (hdate : date_match (strip (lines.getD i [])) = true)
    (hbal : (parse_amounts (lines.getD (i + 1) [])).balanca ≠ []) :
    reconStep lines i =
        fallbackResult lines i (parse_amounts (lines.getD (i + 1) [])) ↔
      detValue lines i = [] := by
  rw [reconStep, if_pos hdate, reconBody, if_neg hbal]
  cases hdl : detLookahead lines i with
  | none => simp [detValue, hdl]
  | some od =>
    obtain ⟨off, det⟩ := od
    have hdv : detValue lines i = det := by simp [detValue, hdl]
    rw [hdv]
    dsimp only
    by_cases hdet : det = []
    · rw [if_pos hdet]
      simp [hdet]
    · rw [if_neg hdet]
      constructor
      · intro h
        exfalso
        apply hdet
        split_ifs at h
        · simp only [fallbackResult, fallbackRow, Prod.mk.injEq,
            Option.some.injEq, Row.mk.injEq] at h
          exact h.1.2.1
        · simp only [fallbackResult, fallbackRow, Prod.mk.injEq,
            Option.some.injEq, Row.mk.injEq] at h
          exact h.1.2.1
        · simp only [posResult, fallbackResult, fallbackRow, Prod.mk.injEq,
            Option.some.injEq, Row.mk.injEq] at h
          exact h.1.2.1
      · intro h
        exact absurd h hdet

/-- C6 amended witness: a block with no description label at offsets 2 and 3
takes the fallback. -/
theorem claim_C6_amended_witness :
    reconStep exC6w 0 = fallbackResult exC6w 0 (parse_amounts (exC6w.getD 1 [])) :=
  (claim_C6_amended exC6w 0 (by decide) (by decide)).mpr (by decide)

/-- C8: the header/noise filter is idempotent. -/
theorem claim_C8 (t : List Char) :
    remove_headers (remove_headers t) = remove_headers t := by
  by_cases h : cleanLines (splitNL t) = []
  · have h1 : remove_headers t = [] := by
      rw [remove_headers, h]
      rfl
    rw [h1]
    decide
  · have hmem := cleanLines_mem (splitNL t)
    have hnl := cleanLines_no_nl t
    rw [remove_headers, remove_headers]
    rw [splitNL_join _ hnl h, cleanLines_fixed _ (fun l hl => hmem l hl)]

/-- C9 counterexample: the per-page homomorphism fails when a page's filtered
result is empty — `filter("LLOGARIA:" + "\n" + "hello")` is `"hello"`, but
`filter("LLOGARIA:") + "\n" + filter("hello")` is `"\nhello"`. -/
theorem claim_C9_counterexample :
    remove_headers (exC9a ++ '\n' :: exC9b) ≠
      remove_headers exC9a ++ '\n' :: remove_headers exC9b := by
  decide

theorem splitNL_append (a b : List Char) :
    splitNL (a ++ '\n' :: b) = splitNL a ++ splitNL b := by
  induction a with
  | nil => simp [splitNL]
  | cons c cs ih =>
    by_cases hc : c = '\n'
    · simp [splitNL, hc, ih]
    · simp only [List.cons_append, splitNL, if_neg hc, ih]
      cases hsp : splitNL cs with
      | nil => exact absurd hsp (splitNL_ne_nil cs)
      | cons m ms => simp [ih, hsp]

/-- C9 (amended): filtering pre-joined pages equals joining per-page filter
results whenever both pages' filtered results are nonempty (in the program
the caller drops pages whose filtered text is empty before joining). -/
theorem claim_C9_amended (a b : List Char)
    (ha : remove_headers a ≠ []) (hb : remove_headers b ≠ []) :
    remove_headers (a ++ '\n' :: b) =
      remove_headers a ++ '\n' :: remove_headers b := by
  have ha' : cleanLines (splitNL a) ≠ [] := by
    intro h
    exact ha (by rw [remove_headers, h]; rfl)
  have hb' : cleanLines (splitNL b) ≠ [] := by
    intro h
    exact hb (by rw [remove_headers, h]; rfl)
  rw [remove_headers, remove_headers, remove_headers, splitNL_append,
    cleanLines_append, pyJoin_append ['\n'] _ _ ha' hb']
  simp

/-- C9 amended witness: two surviving pages. -/
theorem claim_C9_amended_witness :
    remove_headers ("abc".toList ++ '\n' :: "xyz".toList) =
      remove_headers "abc".toList ++ '\n' :: remove_headers "xyz".toList :=
  claim_C9_amended "abc".toList "xyz".toList (by decide) (by decide)

end UnionBank

